import Mathlib

set_option autoImplicit false

/-!
Shallow embedding of the ShotGridReview pipeline (shotgrid_review.py and
deadline_shotgrid_review_cli.py).  Strings are modelled as `List Char`
(Python code points); `\d` of the frame regex is modelled as the ASCII
digits 0-9, the relevant set for frame-numbered filenames.  External
collaborators (the Nuke scene graph, the shotgun_api3 client, the file
system) are modelled by the trace of calls the pipeline issues to them.
-/

/-- Convert a string literal to the character-list representation used
throughout the embedding. -/
def chars (s : String) : List Char := s.data

/-- Separator characters of FRAME_REGEX, the class [._-]. -/
def sepChar (c : Char) : Bool := c = '.' || c = '_' || c = '-'

/-- ASCII decimal digit, modelling the regex class backslash-d. -/
def isDigitC (c : Char) : Bool := 48 ≤ c.toNat && c.toNat ≤ 57

/-- Split a character list at the LAST occurrence of `sep`:
returns (part before it, part after it); the part after it contains no
further `sep`.  `none` when `sep` does not occur. -/
def splitLastOn (sep : Char) : List Char → Option (List Char × List Char)
  | [] => none
  | c :: rest =>
    match splitLastOn sep rest with
    | some (b, a) => some (c :: b, a)
    | none => if c = sep then some ([], rest) else none

/-- Find the split of the stem demanded by the greedy regex
(.*)([._-])(\d+): the LAST position carrying a separator character that
is followed only by digits (at least one) up to the end of the stem.
Returns (prefix part, separator, digit run). -/
def splitFrames : List Char → Option (List Char × Char × List Char)
  | [] => none
  | c :: rest =>
    match splitFrames rest with
    | some (p, s, d) => some (c :: p, s, d)
    | none =>
      if sepChar c && !rest.isEmpty && rest.all isDigitC then
        some ([], c, rest)
      else none

/-- re.search of FRAME_REGEX = (.*)([._-])(\d+)\.([^.]+)$ on a filename.
The [^.]+$ group forces the literal dot to be the last dot of the name,
so the extension is the (non-empty, dot-free) part after the last dot;
the greedy (.*) makes the separator the last eligible position of the
stem.  Returns (group 1 prefix, group 2 separator, group 3 digits,
group 4 extension). -/
def frameMatch (name : List Char) : Option (List Char × Char × List Char × List Char) :=
  match splitLastOn '.' name with
  | none => none
  | some (stem, ext) =>
    if ext = [] then none
    else
      match splitFrames stem with
      | none => none
      | some (p, c, d) => some (p, c, d, ext)

/-- Decimal digits of a natural number, fuel-driven so that it reduces
inside the kernel; models Python str() on a non-negative int. -/
def natStrAux : Nat → Nat → List Char
  | 0, _ => []
  | fuel + 1, n =>
    if n < 10 then [Char.ofNat (48 + n)]
    else natStrAux fuel (n / 10) ++ [Char.ofNat (48 + n % 10)]

def natStr (n : Nat) : List Char := natStrAux (n + 1) n

/-- The frame-spec placeholder "%0<n>d" that the scanner builds with
the format expression "%%0%dd" % padding. -/
def padSpec (n : Nat) : List Char := '%' :: '0' :: natStr n ++ ['d']

/-- Python str() on an int (sign handling included). -/
def intStr (i : Int) : List Char :=
  if i < 0 then '-' :: natStr i.natAbs else natStr i.natAbs

/-- Python int() on an all-digit string: most-significant-digit-first
decimal value. -/
def strToNat : List Char → Nat
  | [] => 0
  | c :: cs => (c.toNat - 48) * 10 ^ cs.length + strToNat cs

/-- Python string comparison: lexicographic on code points, a strict
prefix comparing smaller. -/
def strLt : List Char → List Char → Bool
  | [], [] => false
  | [], _ :: _ => true
  | _ :: _, [] => false
  | a :: as, b :: bs =>
    if a.toNat = b.toNat then strLt as bs else decide (a.toNat < b.toNat)

/-- Python min() over a list of strings: first element, replaced whenever
a later element compares strictly smaller (ties keep the earlier one). -/
def pyMin : List (List Char) → Option (List Char)
  | [] => none
  | x :: xs => some (xs.foldl (fun m y => if strLt y m then y else m) x)

/-- Python max() over a list of strings. -/
def pyMax : List (List Char) → Option (List Char)
  | [] => none
  | x :: xs => some (xs.foldl (fun m y => if strLt m y then y else m) x)

/-- os.path.join for a separator-free relative name under a folder
without a trailing slash (the shape used by the scanner). -/
def joinPath (folder name : List Char) : List Char := folder ++ '/' :: name

/-- os.path.basename for POSIX-separated paths: the part after the last
slash (the whole path when there is no slash). -/
def basename (p : List Char) : List Char :=
  match splitLastOn '/' p with
  | some (_, a) => a
  | none => p

/-- os.path.dirname for POSIX-separated paths: the part before the last
slash (empty when there is no slash). -/
def dirname (p : List Char) : List Char :=
  match splitLastOn '/' p with
  | some (d, _) => d
  | none => []

/-- One os.listdir entry: its name and whether os.path.isdir holds of the
joined path. -/
structure DirEntry where
  name : List Char
  isDir : Bool
deriving DecidableEq

/-- One detected frame-sequence group, as returned by
__get_frame_sequences: the templated sequence path and the append-order
list of frame-number strings. -/
structure SeqGroup where
  path : List Char
  frames : List (List Char)
deriving DecidableEq

/-- The processed_names dict (Python 3.7+ dicts preserve insertion
order) together with the frame_spec local of __get_frame_sequences. -/
structure ScanState where
  spec : Option (List Char)
  proc : List (List Char × SeqGroup)
deriving DecidableEq

/-- Association-list lookup, modelling the processed_names dict access
(keys are unique by construction). -/
def alookup {α : Type} : List (List Char × α) → List Char → Option α
  | [], _ => none
  | kg :: rest, k => if k = kg.1 then some kg.2 else alookup rest k

/-- processed_names[key]["frame_list"].append(frame_str): the entry
bound to key `k` gets the frame string `d` appended to its list. -/
def appendAt : List (List Char × SeqGroup) → List Char → List Char →
    List (List Char × SeqGroup)
  | [], _, _ => []
  | kg :: rest, k, d =>
    (if kg.1 = k then (kg.1, { kg.2 with frames := kg.2.frames ++ [d] })
      else kg) :: appendAt rest k d

/-- The extension allow-list test: skip the file iff a non-empty
allow-list was supplied and the extension is not in it (Python:
if extensions and extension not in extensions). -/
def extSkip (exts : Option (List (List Char))) (ext : List Char) : Bool :=
  match exts with
  | none => false
  | some l => !l.isEmpty && !l.contains ext

/-- The body of the per-filename loop of __get_frame_sequences. -/
def scanStep (folder : List Char) (exts : Option (List (List Char)))
    (st : ScanState) (e : DirEntry) : ScanState :=
  if e.isDir then st
  else
    match frameMatch e.name with
    | none => st
    | some (pre, c, ds, ext) =>
      let key := pre ++ '.' :: ext
      match alookup st.proc key with
      | some _ => { st with proc := appendAt st.proc key ds }
      | none =>
        if extSkip exts ext then st
        else
          let spec := match st.spec with
            | some s => s
            | none => padSpec ds.length
          let fname := pre ++ c :: spec
          let fname := if ext = [] then fname else fname ++ '.' :: ext
          { spec := some spec
            proc := st.proc ++ [(key, ⟨joinPath folder fname, [ds]⟩)] }

/-- The whole directory loop of __get_frame_sequences. -/
def scanFold (folder : List Char) (exts : Option (List (List Char)))
    (st : ScanState) (entries : List DirEntry) : ScanState :=
  entries.foldl (scanStep folder exts) st

/-- ShotGridReview.__get_frame_sequences(folder, extensions, frame_spec)
applied to a directory listing: the final list of
(sequence_path, frame_list) pairs in dict insertion order. -/
def getFrameSequences (folder : List Char) (exts : Option (List (List Char)))
    (spec0 : Option (List Char)) (entries : List DirEntry) : List SeqGroup :=
  (scanFold folder exts ⟨spec0, []⟩ entries).proc.map Prod.snd

/-- Is pat a prefix of s (character-wise)? -/
def isPrefixL : List Char → List Char → Bool
  | [], _ => true
  | _ :: _, [] => false
  | a :: as, b :: bs => a = b && isPrefixL as bs

/-- Python substring test (pat in s): pat occurs contiguously in s. -/
def hasSub (pat : List Char) : List Char → Bool
  | [] => isPrefixL pat []
  | c :: rest => isPrefixL pat (c :: rest) || hasSub pat rest

/-- Python filename.replace("1001", "%04d"): all non-overlapping
occurrences, left to right. -/
def replace1001 : List Char → List Char
  | '1' :: '0' :: '0' :: '1' :: rest => '%' :: '0' :: '4' :: 'd' :: replace1001 rest
  | c :: rest => c :: replace1001 rest
  | [] => []

/-- The 1001-to-placeholder heuristic of __validate_sequence: when the
literal "1001" occurs in the candidate basename it is replaced (all
occurrences) by "%04d" before comparison. -/
def fixFilename (f : List Char) : List Char :=
  if hasSub (chars ("1001")) f then replace1001 f else f

/-- The candidate loop of __validate_sequence: first group whose fixed
basename equals the requested basename, none when no candidate matches
(the code then raises its fatal sequence-not-found exception). -/
def findSeq (fname : List Char) : List SeqGroup → Option SeqGroup
  | [] => none
  | g :: gs =>
    if fname = fixFilename (basename g.path) then some g else findSeq fname gs

/-- ShotGridReview.__validate_sequence, with the os.listdir result of the
parent directory supplied as `entries`. -/
def validateSequence (entries : List DirEntry) (sequencePath : List Char) :
    Option SeqGroup :=
  findSeq (basename sequencePath)
    (getFrameSequences (dirname sequencePath) none none entries)

/-- first/last read-node range of __setup_script:
int(min(sequence[1])) and int(max(sequence[1])) — Python min/max over the
frame-number STRINGS, converted to int afterwards.  none models the
ValueError that min() raises on an empty list. -/
def setupScriptRange (frames : List (List Char)) : Option (Nat × Nat) :=
  match pyMin frames, pyMax frames with
  | some a, some b => some (strToNat a, strToNat b)
  | _, _ => none

/-- The publish record fields that __setup_slate and
__upload_to_shotgrid read from the sg.find_one result (all nested
fields already projected, as the code does with chained .get calls). -/
structure PublishData where
  pubId : Int
  projectName : List Char
  code : List Char
  description : List Char
  createdByName : List Char
  taskId : Int
  taskName : List Char
  versionNumber : Nat
deriving DecidableEq

/-- "%0<w>d" zero padding of a natural number, as used by "v%03d". -/
def padZero (w n : Nat) : List Char :=
  if (natStr n).length < w then
    List.replicate (w - (natStr n).length) '0' ++ natStr n
  else natStr n

/-- The knob values __setup_slate writes on the nfaSlate node.  The fps
knob (set verbatim from the fps argument) and the date knob (wall
clock) are outside the embedding. -/
structure SlateKnobs where
  project : List Char
  company : List Char
  file : List Char
  frameList : List Char
  artist : List Char
  task : List Char
  version : List Char
  colorspaceIDT : List Char
  colorspaceODT : List Char
  description : List Char
deriving DecidableEq

/-- ShotGridReview.__setup_slate knob assignments. -/
def setupSlate (pd : PublishData) (company : List Char)
    (firstFrame lastFrame : Int) (colorspaceIdt colorspaceOdt : List Char) :
    SlateKnobs :=
  { project := pd.projectName
    company := company
    file := pd.code
    frameList :=
      intStr firstFrame ++ chars (" - ") ++ intStr lastFrame ++
        chars (" (") ++ intStr (lastFrame - firstFrame) ++ chars (")")
    artist := pd.createdByName
    task := pd.taskName
    version := 'v' :: padZero 3 pd.versionNumber
    colorspaceIDT := colorspaceIdt
    colorspaceODT := colorspaceOdt
    description := pd.description }

/-- Externally visible calls of one ShotGridReview run, in program
order.  findOne is the sg.find_one read; render is the nuke.execute
call with its two frame arguments; renderError records the caught and
logged render exception; createVersion, uploadMovie and updateTask are
the three shotgun_api3 writes of __upload_to_shotgrid; abort is an
uncaught exception ending the run. -/
inductive Event where
  | findOne : Event
  | render : Int → Int → Event
  | renderError : Event
  | createVersion : Event
  | uploadMovie : Event
  | updateTask : Int → Event
  | abort : Event
deriving DecidableEq

/-- Is the event one of the three tracking-system writes issued by
__upload_to_shotgrid? -/
def isSgWrite : Event → Bool
  | Event.createVersion => true
  | Event.uploadMovie => true
  | Event.updateTask _ => true
  | _ => false

/-- Is the event the nuke.execute render call? -/
def isRender : Event → Bool
  | Event.render _ _ => true
  | _ => false

/-- Trace of ShotGridReview.__init__ (the whole pipeline), driven by the
directory listing, the sg.find_one result (`publish`) and whether
nuke.execute raises (`renderFails`).  A failed __validate_sequence
raises; int(min(...)) in __setup_script raises on an empty frame list
(never reached for scanner output); a None publish record makes
__setup_slate raise AttributeError on .get, before the write node,
render and upload stages; a render error is caught and logged and the
run continues into __upload_to_shotgrid, whose three writes are issued
in program order. -/
def runPipeline (entries : List DirEntry) (sequencePath : List Char)
    (firstFrame lastFrame : Int) (publish : Option PublishData)
    (renderFails : Bool) : List Event :=
  match validateSequence entries sequencePath with
  | none => [Event.abort]
  | some g =>
    match setupScriptRange g.frames with
    | none => [Event.abort]
    | some _ =>
      Event.findOne ::
        match publish with
        | none => [Event.abort]
        | some p =>
          Event.render (firstFrame - 1) lastFrame ::
            ((if renderFails then [Event.renderError] else []) ++
              [Event.createVersion, Event.uploadMovie,
                Event.updateTask p.taskId])

/-- The grouping key (prefix ++ "." ++ extension) and frame string of a
listing entry, none for directories and non-matching names. -/
def entryKeyDigits (e : DirEntry) : Option (List Char × List Char) :=
  if e.isDir then none
  else
    match frameMatch e.name with
    | some (pre, _, ds, ext) => some (pre ++ '.' :: ext, ds)
    | none => none

/-- Frame-number strings contributed to the group keyed `k` by the
directory listing, in listing order: one per non-directory entry whose
name matches FRAME_REGEX with that prefix-plus-extension key. -/
def digitsFor (k : List Char) : List DirEntry → List (List Char)
  | [] => []
  | e :: es =>
    match entryKeyDigits e with
    | some kd => if kd.1 = k then kd.2 :: digitsFor k es else digitsFor k es
    | none => digitsFor k es

/-- Keys of the matching entries of a listing, in listing order. -/
def matchingKeys (entries : List DirEntry) : List (List Char) :=
  entries.filterMap fun e => (entryKeyDigits e).map Prod.fst

/-- Frame list bound to key `k` in the processed_names association
list, when present. -/
def framesAt (proc : List (List Char × SeqGroup)) (k : List Char) :
    Option (List (List Char)) :=
  (alookup proc k).map SeqGroup.frames

/-- What a frame list becomes after the scan consumes further entries
contributing the frame strings `ds` to its key: an existing list is
extended at the end; an absent one is created exactly when at least one
entry contributes. -/
def framesAfter (cur : Option (List (List Char))) (ds : List (List Char)) :
    Option (List (List Char)) :=
  match cur with
  | some fs => some (fs ++ ds)
  | none => if ds = [] then none else some ds

/-- The group's templated path lives under `folder` and carries the
placeholder string `s` between a separator character and the dotted
extension. -/
def usesSpec (folder s : List Char) (g : SeqGroup) : Prop :=
  ∃ pre c ext, sepChar c = true ∧
    g.path = joinPath folder (pre ++ c :: s ++ '.' :: ext)

/-- Invariant of the frame_spec threading in __get_frame_sequences when
called with frame_spec=None: while no group exists the local is still
None; once set it equals the "%0<w>d" placeholder built from the digit
count of the first frame of the FIRST group, and every group's path
uses that one shared placeholder. -/
def SpecInv (folder : List Char) (st : ScanState) : Prop :=
  match st.spec with
  | none => st.proc = []
  | some s =>
    (∃ kg rest, st.proc = kg :: rest ∧
      ∃ d0 ds, kg.2.frames = d0 :: ds ∧ s = padSpec d0.length) ∧
    ∀ kg ∈ st.proc, usesSpec folder s kg.2

/-- Sample listing: one two-frame sequence (used by witnesses). -/
def sampleEntries : List DirEntry :=
  [⟨chars ("shot_0010.1001.exr"), false⟩, ⟨chars ("shot_0010.1002.exr"), false⟩]

/-- Requested sequence path matching sampleEntries. -/
def samplePath : List Char := chars ("d/shot_0010.%04d.exr")

/-- The group the scanner derives from sampleEntries. -/
def sampleGroup : SeqGroup :=
  ⟨chars ("d/shot_0010.%04d.exr"), [chars ("1001"), chars ("1002")]⟩

/-- Sample publish record (used by witnesses). -/
def samplePub : PublishData :=
  ⟨42421, chars ("it_will_rain"), chars ("iwr_pri_0030_v014.%04d.exr"),
    chars ("Integrated DMP"), chars ("Example User"), 24136, chars ("comp"), 14⟩

/-- Listing whose single group mixes 3- and 4-digit frame numbers
(counterexample data for the read-node range claim). -/
def mixedEntries : List DirEntry :=
  [⟨chars ("a.999.exr"), false⟩, ⟨chars ("a.1000.exr"), false⟩]

/-- Requested path matching the mixedEntries group. -/
def mixedPath : List Char := chars ("d/a.%03d.exr")

/-- Listing with two groups whose first members have different digit
counts (counterexample data for the per-group padding claim). -/
def padEntries : List DirEntry :=
  [⟨chars ("a.1001.exr"), false⟩, ⟨chars ("b.01.exr"), false⟩]

/-- Two interleaved sequences with different prefixes (witness data for
the two-group claim). -/
def interEntries : List DirEntry :=
  [⟨chars ("a.0001.exr"), false⟩, ⟨chars ("b.0101.exr"), false⟩,
    ⟨chars ("a.0002.exr"), false⟩, ⟨chars ("b.0102.exr"), false⟩]

lemma alookup_append {α : Type} (l1 l2 : List (List Char × α)) (k : List Char) :
    alookup (l1 ++ l2) k =
      match alookup l1 k with
      | some v => some v
      | none => alookup l2 k := by
  induction l1 with
  | nil => simp [alookup]
  | cons kg rest ih =>
    by_cases h : k = kg.1 <;> simp [alookup, h, ih]

lemma alookup_appendAt_self (proc : List (List Char × SeqGroup)) (k d : List Char) :
    alookup (appendAt proc k d) k =
      (alookup proc k).map fun g => { g with frames := g.frames ++ [d] } := by
  induction proc with
  | nil => simp [alookup, appendAt]
  | cons kg rest ih =>
    by_cases h : kg.1 = k
    · simp [appendAt, alookup, h, ih]
    · have h' : ¬ k = kg.1 := fun hk => h hk.symm
      simp [appendAt, alookup, h, h', ih]

lemma alookup_appendAt_ne (proc : List (List Char × SeqGroup)) (k d k' : List Char)
    (h : k' ≠ k) :
    alookup (appendAt proc k d) k' = alookup proc k' := by
  induction proc with
  | nil => simp [appendAt]
  | cons kg rest ih =>
    by_cases h1 : kg.1 = k
    · have h2 : ¬ k' = kg.1 := fun hk => h (hk.trans h1)
      simp [appendAt, alookup, h1, h2, ih, h]
    · by_cases h2 : k' = kg.1 <;> simp [appendAt, alookup, h1, h2, ih]

lemma keys_appendAt (proc : List (List Char × SeqGroup)) (k d : List Char) :
    (appendAt proc k d).map Prod.fst = proc.map Prod.fst := by
  induction proc with
  | nil => simp [appendAt]
  | cons kg rest ih =>
    by_cases h : kg.1 = k <;> simp [appendAt, h, ih]

lemma alookup_eq_none_iff {α : Type} (proc : List (List Char × α)) (k : List Char) :
    alookup proc k = none ↔ k ∉ proc.map Prod.fst := by
  induction proc with
  | nil => simp [alookup]
  | cons kg rest ih =>
    by_cases h : k = kg.1
    · constructor
      · intro hc
        rw [show alookup (kg :: rest) k = some kg.2 from by simp [alookup, h]] at hc
        cases hc
      · intro hc
        apply absurd _ hc
        rw [List.map_cons, h]
        exact List.mem_cons_self _ _
    · constructor
      · intro hc
        have hr := ih.mp (by simpa [alookup, h] using hc)
        intro hmem
        rw [List.map_cons] at hmem
        rcases List.mem_cons.mp hmem with h1 | h1
        · exact h h1
        · exact hr h1
      · intro hc
        have hk : k ∉ rest.map Prod.fst := fun hmem => by
          apply hc
          rw [List.map_cons]
          exact List.mem_cons_of_mem _ hmem
        simpa [alookup, h] using ih.mpr hk

lemma splitFrames_sep (l : List Char) :
    ∀ (p : List Char) (c : Char) (d : List Char),
      splitFrames l = some (p, c, d) → sepChar c = true := by
  induction l with
  | nil => intro p c d h; simp [splitFrames] at h
  | cons a rest ih =>
    intro p c d h
    simp only [splitFrames] at h
    cases hs : splitFrames rest with
    | some pcd =>
      obtain ⟨p', c', d'⟩ := pcd
      rw [hs] at h
      simp only [Option.some.injEq, Prod.mk.injEq] at h
      obtain ⟨h1, h2, h3⟩ := h
      exact h2 ▸ ih p' c' d' hs
    | none =>
      rw [hs] at h
      by_cases hc : (sepChar a && !rest.isEmpty && rest.all isDigitC) = true
      · rw [if_pos hc] at h
        simp only [Option.some.injEq, Prod.mk.injEq] at h
        obtain ⟨h1, h2, h3⟩ := h
        have ha : sepChar a = true := by
          simp only [Bool.and_eq_true] at hc
          exact hc.1.1
        exact h2 ▸ ha
      · rw [if_neg hc] at h
        exact absurd h (by simp)

lemma frameMatch_inv (n : List Char) (p : List Char) (c : Char) (d x : List Char)
    (h : frameMatch n = some (p, c, d, x)) :
    sepChar c = true ∧ x ≠ [] := by
  cases hs : splitLastOn '.' n with
  | none => simp [frameMatch, hs] at h
  | some sx =>
    obtain ⟨stem, ext⟩ := sx
    simp only [frameMatch, hs] at h
    by_cases he : ext = []
    · rw [if_pos he] at h; simp at h
    · rw [if_neg he] at h
      cases hf : splitFrames stem with
      | none => rw [hf] at h; simp at h
      | some pcd =>
        obtain ⟨p', c', d'⟩ := pcd
        rw [hf] at h
        simp only [Option.some.injEq, Prod.mk.injEq] at h
        obtain ⟨h1, h2, h3, h4⟩ := h
        refine ⟨h2 ▸ splitFrames_sep stem p' c' d' hf, ?_⟩
        rw [← h4]
        exact he

lemma entryKeyDigits_none_step (folder : List Char)
    (exts : Option (List (List Char))) (st : ScanState) (e : DirEntry)
    (h : entryKeyDigits e = none) : scanStep folder exts st e = st := by
  cases hd : e.isDir with
  | true => simp [scanStep, hd]
  | false =>
    cases hm : frameMatch e.name with
    | none => simp [scanStep, hd, hm]
    | some pcdx =>
      obtain ⟨p, c, d, x⟩ := pcdx
      simp [entryKeyDigits, hd, hm] at h

lemma entryKeyDigits_some_inv (e : DirEntry) (k d : List Char)
    (h : entryKeyDigits e = some (k, d)) :
    e.isDir = false ∧ ∃ pre c ext, frameMatch e.name = some (pre, c, d, ext) ∧
      k = pre ++ '.' :: ext ∧ sepChar c = true ∧ ext ≠ [] := by
  cases hd : e.isDir with
  | true => simp [entryKeyDigits, hd] at h
  | false =>
    cases hm : frameMatch e.name with
    | none => simp [entryKeyDigits, hd, hm] at h
    | some pcdx =>
      obtain ⟨p, c, ds, x⟩ := pcdx
      simp only [entryKeyDigits, hd, Bool.false_eq_true, if_false, hm,
        Option.some.injEq, Prod.mk.injEq] at h
      obtain ⟨hk, hds⟩ := h
      obtain ⟨hsep, hx⟩ := frameMatch_inv e.name p c ds x hm
      refine ⟨rfl, p, c, x, ?_, hk.symm, hsep, hx⟩
      rw [hds]

lemma scanStep_found (folder : List Char) (exts : Option (List (List Char)))
    (st : ScanState) (e : DirEntry) (k d : List Char) (g : SeqGroup)
    (hkd : entryKeyDigits e = some (k, d)) (hl : alookup st.proc k = some g) :
    scanStep folder exts st e = ⟨st.spec, appendAt st.proc k d⟩ := by
  obtain ⟨hd, pre, c, ext, hm, hk, hsep, hx⟩ := entryKeyDigits_some_inv e k d hkd
  subst hk
  simp [scanStep, hd, hm, hl]

lemma scanStep_new (folder : List Char) (st : ScanState) (e : DirEntry)
    (k d : List Char)
    (hkd : entryKeyDigits e = some (k, d)) (hl : alookup st.proc k = none) :
    ∃ s g, g.frames = [d] ∧ usesSpec folder s g ∧
      scanStep folder none st e = ⟨some s, st.proc ++ [(k, g)]⟩ ∧
      (st.spec = none → s = padSpec d.length) ∧
      (∀ s0, st.spec = some s0 → s = s0) := by
  obtain ⟨hd, pre, c, ext, hm, hk, hsep, hx⟩ := entryKeyDigits_some_inv e k d hkd
  subst hk
  cases hsp : st.spec with
  | none =>
    refine ⟨padSpec d.length,
      ⟨joinPath folder (pre ++ c :: padSpec d.length ++ '.' :: ext), [d]⟩, rfl,
      ⟨pre, c, ext, hsep, rfl⟩, ?_, fun _ => rfl, ?_⟩
    · simp only [scanStep, hd, Bool.false_eq_true, if_false, hm, hl, extSkip,
        hsp, if_neg hx]
    · intro s0 h0
      exact Option.noConfusion h0
  | some s0 =>
    refine ⟨s0, ⟨joinPath folder (pre ++ c :: s0 ++ '.' :: ext), [d]⟩, rfl,
      ⟨pre, c, ext, hsep, rfl⟩, ?_, ?_, ?_⟩
    · simp only [scanStep, hd, Bool.false_eq_true, if_false, hm, hl, extSkip,
        hsp, if_neg hx]
    · intro h0
      exact Option.noConfusion h0
    · intro s1 h1
      exact Option.some.inj h1

lemma scanFold_framesAt (folder : List Char) (es : List DirEntry) :
    ∀ (st : ScanState) (k : List Char),
      framesAt (scanFold folder none st es).proc k =
        framesAfter (framesAt st.proc k) (digitsFor k es) := by
  induction es with
  | nil =>
    intro st k
    cases h : framesAt st.proc k <;> simp [scanFold, digitsFor, framesAfter, h]
  | cons e es ih =>
    intro st k
    have hfold : scanFold folder none st (e :: es) =
        scanFold folder none (scanStep folder none st e) es := rfl
    rw [hfold]
    cases hkd : entryKeyDigits e with
    | none =>
      rw [entryKeyDigits_none_step folder none st e hkd, ih]
      simp [digitsFor, hkd]
    | some kd =>
      obtain ⟨k', d⟩ := kd
      cases hl : alookup st.proc k' with
      | some g =>
        rw [scanStep_found folder none st e k' d g hkd hl, ih]
        by_cases hk : k' = k
        · subst hk
          have h1 : framesAt (appendAt st.proc k' d) k' =
              some (g.frames ++ [d]) := by
            simp [framesAt, alookup_appendAt_self, hl]
          have h2 : framesAt st.proc k' = some g.frames := by
            simp [framesAt, hl]
          rw [h1, h2]
          simp [digitsFor, hkd, framesAfter, List.append_assoc]
        · have h1 : framesAt (appendAt st.proc k' d) k = framesAt st.proc k := by
            simp [framesAt, alookup_appendAt_ne st.proc k' d k
              (fun hkk => hk hkk.symm)]
          rw [h1]
          simp [digitsFor, hkd, hk]
      | none =>
        obtain ⟨s, g, hgf, huse, hstep, hsp1, hsp2⟩ :=
          scanStep_new folder st e k' d hkd hl
        rw [hstep, ih]
        by_cases hk : k' = k
        · subst hk
          have h1 : framesAt (st.proc ++ [(k', g)]) k' = some [d] := by
            simp only [framesAt, alookup_append, hl]
            simp [alookup, hgf]
          have h2 : framesAt st.proc k' = none := by
            simp [framesAt, hl]
          rw [h1, h2]
          simp [digitsFor, hkd, framesAfter]
        · have h1 : framesAt (st.proc ++ [(k', g)]) k = framesAt st.proc k := by
            simp only [framesAt, alookup_append]
            have hne : ¬ k = k' := fun hkk => hk hkk.symm
            have : alookup [(k', g)] k = none := by
              simp [alookup, hne]
            rw [this]
            cases alookup st.proc k <;> simp
          rw [h1]
          simp [digitsFor, hkd, hk]

lemma scanFold_keys_nodup (folder : List Char) (es : List DirEntry) :
    ∀ st : ScanState, (st.proc.map Prod.fst).Nodup →
      ((scanFold folder none st es).proc.map Prod.fst).Nodup := by
  induction es with
  | nil => intro st h; exact h
  | cons e es ih =>
    intro st h
    have hfold : scanFold folder none st (e :: es) =
        scanFold folder none (scanStep folder none st e) es := rfl
    rw [hfold]
    cases hkd : entryKeyDigits e with
    | none => rw [entryKeyDigits_none_step folder none st e hkd]; exact ih st h
    | some kd =>
      obtain ⟨k', d⟩ := kd
      cases hl : alookup st.proc k' with
      | some g =>
        rw [scanStep_found folder none st e k' d g hkd hl]
        apply ih
        simpa [keys_appendAt] using h
      | none =>
        obtain ⟨s, g, hgf, huse, hstep, hsp1, hsp2⟩ :=
          scanStep_new folder st e k' d hkd hl
        rw [hstep]
        apply ih
        have hnot : k' ∉ st.proc.map Prod.fst := (alookup_eq_none_iff _ _).mp hl
        simp [List.nodup_append, h, hnot]

lemma appendAt_frames_ne (proc : List (List Char × SeqGroup)) (k d : List Char)
    (h : ∀ kg ∈ proc, kg.2.frames ≠ []) :
    ∀ kg ∈ appendAt proc k d, kg.2.frames ≠ [] := by
  induction proc with
  | nil => intro kg hm; cases hm
  | cons kg0 rest ih =>
    intro kg hm
    simp only [appendAt] at hm
    rcases List.mem_cons.mp hm with hm | hm
    · by_cases h0 : kg0.1 = k
      · rw [if_pos h0] at hm
        rw [hm]
        simp
      · rw [if_neg h0] at hm
        rw [hm]
        exact h kg0 (List.mem_cons_self _ _)
    · exact ih (fun kg1 hm1 => h kg1 (List.mem_cons_of_mem _ hm1)) kg hm

lemma scanFold_frames_ne (folder : List Char) (es : List DirEntry) :
    ∀ st : ScanState, (∀ kg ∈ st.proc, kg.2.frames ≠ []) →
      ∀ kg ∈ (scanFold folder none st es).proc, kg.2.frames ≠ [] := by
  induction es with
  | nil => intro st h; exact h
  | cons e es ih =>
    intro st h
    have hfold : scanFold folder none st (e :: es) =
        scanFold folder none (scanStep folder none st e) es := rfl
    rw [hfold]
    cases hkd : entryKeyDigits e with
    | none => rw [entryKeyDigits_none_step folder none st e hkd]; exact ih st h
    | some kd =>
      obtain ⟨k', d⟩ := kd
      cases hl : alookup st.proc k' with
      | some g =>
        rw [scanStep_found folder none st e k' d g hkd hl]
        refine ih _ ?_
        intro kg hmem
        exact appendAt_frames_ne st.proc k' d h kg hmem
      | none =>
        obtain ⟨s, g, hgf, huse, hstep, hsp1, hsp2⟩ :=
          scanStep_new folder st e k' d hkd hl
        rw [hstep]
        refine ih _ ?_
        intro kg hmem
        have hmem' : kg ∈ st.proc ++ [(k', g)] := hmem
        rcases List.mem_append.mp hmem' with hm | hm
        · exact h kg hm
        · rcases List.mem_cons.mp hm with hm1 | hm1
          · rw [hm1]
            simp [hgf]
          · cases hm1

lemma appendAt_usesSpec (folder s : List Char)
    (proc : List (List Char × SeqGroup)) (k d : List Char)
    (h : ∀ kg ∈ proc, usesSpec folder s kg.2) :
    ∀ kg ∈ appendAt proc k d, usesSpec folder s kg.2 := by
  induction proc with
  | nil => intro kg hm; cases hm
  | cons kg0 rest ih =>
    intro kg hm
    simp only [appendAt] at hm
    rcases List.mem_cons.mp hm with hm | hm
    · by_cases h0 : kg0.1 = k
      · rw [if_pos h0] at hm
        rw [hm]
        obtain ⟨pre, c, ext, hsep, hpath⟩ := h kg0 (List.mem_cons_self _ _)
        exact ⟨pre, c, ext, hsep, hpath⟩
      · rw [if_neg h0] at hm
        rw [hm]
        exact h kg0 (List.mem_cons_self _ _)
    · exact ih (fun kg1 hm1 => h kg1 (List.mem_cons_of_mem _ hm1)) kg hm

lemma scanStep_specInv (folder : List Char) (st : ScanState) (e : DirEntry)
    (h : SpecInv folder st) : SpecInv folder (scanStep folder none st e) := by
  cases hkd : entryKeyDigits e with
  | none => rw [entryKeyDigits_none_step folder none st e hkd]; exact h
  | some kd =>
    obtain ⟨k', d⟩ := kd
    cases hl : alookup st.proc k' with
    | some g =>
      rw [scanStep_found folder none st e k' d g hkd hl]
      cases hsp : st.spec with
      | none =>
        rw [SpecInv, hsp] at h
        rw [h] at hl
        cases hl
      | some s =>
        rw [SpecInv, hsp] at h
        obtain ⟨⟨kg0, rest, hproc, d0, ds, hf0, hs⟩, hall⟩ := h
        rw [SpecInv]
        constructor
        · refine ⟨(if kg0.1 = k' then
            (kg0.1, { kg0.2 with frames := kg0.2.frames ++ [d] }) else kg0),
            appendAt rest k' d, by rw [hproc, appendAt], ?_⟩
          by_cases h0 : kg0.1 = k'
          · rw [if_pos h0]
            exact ⟨d0, ds ++ [d], by simp [hf0], hs⟩
          · rw [if_neg h0]
            exact ⟨d0, ds, hf0, hs⟩
        · intro kg hm
          exact appendAt_usesSpec folder s st.proc k' d hall kg hm
    | none =>
      obtain ⟨s, g, hgf, huse, hstep, hsp1, hsp2⟩ :=
        scanStep_new folder st e k' d hkd hl
      rw [hstep]
      cases hsp : st.spec with
      | none =>
        have hproc : st.proc = [] := by rw [SpecInv, hsp] at h; exact h
        rw [SpecInv]
        constructor
        · refine ⟨(k', g), [], by rw [hproc]; rfl, d, [], by rw [hgf], ?_⟩
          rw [hsp1 hsp]
        · intro kg hm
          have hm' : kg ∈ st.proc ++ [(k', g)] := hm
          rw [hproc] at hm'
          rcases List.mem_cons.mp hm' with hm1 | hm1
          · rw [hm1]; exact huse
          · cases hm1
      | some s0 =>
        have hss : s = s0 := hsp2 s0 hsp
        rw [SpecInv, hsp] at h
        obtain ⟨⟨kg0, rest, hproc, d0, ds, hf0, hs⟩, hall⟩ := h
        rw [SpecInv]
        constructor
        · exact ⟨kg0, rest ++ [(k', g)], by rw [hproc, List.cons_append],
            d0, ds, hf0, by rw [hss]; exact hs⟩
        · intro kg hm
          have hm' : kg ∈ st.proc ++ [(k', g)] := hm
          rcases List.mem_append.mp hm' with hm1 | hm1
          · rw [hss]; exact hall kg hm1
          · rcases List.mem_cons.mp hm1 with hm2 | hm2
            · rw [hm2, hss]
              rw [hss] at huse
              exact huse
            · cases hm2

lemma scanFold_specInv (folder : List Char) (es : List DirEntry) :
    ∀ st : ScanState, SpecInv folder st →
      SpecInv folder (scanFold folder none st es) := by
  induction es with
  | nil => intro st h; exact h
  | cons e es ih =>
    intro st h
    exact ih (scanStep folder none st e) (scanStep_specInv folder st e h)

lemma findSeq_mem (f : List Char) (gs : List SeqGroup) (g : SeqGroup)
    (h : findSeq f gs = some g) : g ∈ gs := by
  induction gs with
  | nil => cases h
  | cons g0 rest ih =>
    simp only [findSeq] at h
    by_cases h0 : f = fixFilename (basename g0.path)
    · rw [if_pos h0] at h
      exact List.mem_cons.mpr (Or.inl (Option.some.inj h).symm)
    · rw [if_neg h0] at h
      exact List.mem_cons_of_mem _ (ih h)

lemma findSeq_matches (f : List Char) (gs : List SeqGroup) (g : SeqGroup)
    (h : findSeq f gs = some g) : f = fixFilename (basename g.path) := by
  induction gs with
  | nil => cases h
  | cons g0 rest ih =>
    simp only [findSeq] at h
    by_cases h0 : f = fixFilename (basename g0.path)
    · rw [if_pos h0] at h
      rw [← Option.some.inj h]
      exact h0
    · rw [if_neg h0] at h
      exact ih h

lemma findSeq_of_match (f : List Char) (gs : List SeqGroup) (g : SeqGroup)
    (hmem : g ∈ gs) (hf : f = fixFilename (basename g.path)) :
    ∃ g', findSeq f gs = some g' ∧ g' ∈ gs ∧
      f = fixFilename (basename g'.path) := by
  induction gs with
  | nil => cases hmem
  | cons g0 rest ih =>
    by_cases h0 : f = fixFilename (basename g0.path)
    · exact ⟨g0, by simp [findSeq, h0], List.mem_cons_self _ _, h0⟩
    · rcases List.mem_cons.mp hmem with h1 | h1
      · rw [← h1] at h0
        exact absurd hf h0
      · obtain ⟨g', hg1, hg2, hg3⟩ := ih h1
        exact ⟨g', by simp [findSeq, h0, hg1], List.mem_cons_of_mem _ hg2, hg3⟩

lemma findSeq_none (f : List Char) (gs : List SeqGroup)
    (h : ∀ g ∈ gs, f ≠ fixFilename (basename g.path)) :
    findSeq f gs = none := by
  induction gs with
  | nil => rfl
  | cons g0 rest ih =>
    simp only [findSeq]
    rw [if_neg (h g0 (List.mem_cons_self _ _))]
    exact ih fun g hm => h g (List.mem_cons_of_mem _ hm)

lemma getFrameSequences_frames_ne (folder : List Char)
    (spec0 : Option (List Char)) (entries : List DirEntry) (g : SeqGroup)
    (h : g ∈ getFrameSequences folder none spec0 entries) : g.frames ≠ [] := by
  simp only [getFrameSequences] at h
  rcases List.mem_map.mp h with ⟨kg, hmem, hsnd⟩
  rw [← hsnd]
  refine scanFold_frames_ne folder entries ⟨spec0, []⟩ ?_ kg hmem
  intro kg0 hm0
  cases hm0

lemma setupScriptRange_of_ne (frames : List (List Char)) (h : frames ≠ []) :
    ∃ ab, setupScriptRange frames = some ab := by
  cases frames with
  | nil => exact absurd rfl h
  | cons x xs => exact ⟨_, rfl⟩

lemma validateSequence_frames_ne (entries : List DirEntry) (path : List Char)
    (g : SeqGroup) (h : validateSequence entries path = some g) :
    g.frames ≠ [] := by
  have hmem : g ∈ getFrameSequences (dirname path) none none entries :=
    findSeq_mem _ _ _ h
  exact getFrameSequences_frames_ne _ _ _ _ hmem

lemma runPipeline_of_validate (entries : List DirEntry) (path : List Char)
    (ff lf : Int) (p : PublishData) (rf : Bool) (g : SeqGroup)
    (h : validateSequence entries path = some g) :
    runPipeline entries path ff lf (some p) rf =
      Event.findOne :: Event.render (ff - 1) lf ::
        ((if rf then [Event.renderError] else []) ++
          [Event.createVersion, Event.uploadMovie, Event.updateTask p.taskId]) := by
  obtain ⟨ab, hab⟩ :=
    setupScriptRange_of_ne g.frames (validateSequence_frames_ne entries path g h)
  simp [runPipeline, h, hab]

/-- C1: for every run in which the render stage raises an error, the
error is caught and logged and the pipeline still proceeds to the
upload stage: with a validated sequence and a fetched publish record,
the trace of a run whose nuke.execute call fails records the render
attempt and the caught error, and then still issues the Version
create, the movie upload and the task update. -/
theorem claim_render_failure_still_uploads (entries : List DirEntry)
    (path : List Char) (ff lf : Int) (p : PublishData) (g : SeqGroup)
    (h : validateSequence entries path = some g) :
    runPipeline entries path ff lf (some p) true =
      [Event.findOne, Event.render (ff - 1) lf, Event.renderError,
        Event.createVersion, Event.uploadMovie, Event.updateTask p.taskId] := by
  rw [runPipeline_of_validate entries path ff lf p true g h]
  rfl

/-- Witness for C1 at a concrete directory, path and publish record. -/
theorem claim_render_failure_still_uploads_witness :
    runPipeline sampleEntries samplePath 1001 1010 (some samplePub) true =
      [Event.findOne, Event.render 1000 1010, Event.renderError,
        Event.createVersion, Event.uploadMovie, Event.updateTask 24136] := by
  rw [claim_render_failure_still_uploads sampleEntries samplePath 1001 1010
    samplePub sampleGroup (by decide)]
  decide

/-- C2: every run that reaches the upload stage issues exactly the three
tracking-system writes, in the fixed order Version create, then movie
upload against it, then task-status update; everything before them in
the trace is not a tracking write, so the task update is issued exactly
once and only after the upload call. -/
theorem claim_upload_write_order (entries : List DirEntry) (path : List Char)
    (ff lf : Int) (p : PublishData) (rf : Bool) (g : SeqGroup)
    (h : validateSequence entries path = some g) :
    ∃ pre, runPipeline entries path ff lf (some p) rf =
        pre ++ [Event.createVersion, Event.uploadMovie,
          Event.updateTask p.taskId] ∧
      ∀ e ∈ pre, isSgWrite e = false := by
  refine ⟨Event.findOne :: Event.render (ff - 1) lf ::
    (if rf then [Event.renderError] else []), ?_, ?_⟩
  · rw [runPipeline_of_validate entries path ff lf p rf g h]
    simp
  · intro e he
    rcases List.mem_cons.mp he with h1 | h1
    · rw [h1]; rfl
    rcases List.mem_cons.mp h1 with h2 | h2
    · rw [h2]; rfl
    cases rf with
    | false => cases h2
    | true =>
      rcases List.mem_cons.mp h2 with h3 | h3
      · rw [h3]; rfl
      · cases h3

/-- Witness for C2 at a concrete run. -/
theorem claim_upload_write_order_witness :
    ∃ pre, runPipeline sampleEntries samplePath 1001 1010 (some samplePub)
        false =
        pre ++ [Event.createVersion, Event.uploadMovie,
          Event.updateTask 24136] ∧
      ∀ e ∈ pre, isSgWrite e = false :=
  claim_upload_write_order sampleEntries samplePath 1001 1010 samplePub false
    sampleGroup (by decide)

/-- C8: every run that reaches the render stage executes the render over
exactly the range [firstFrame - 1, lastFrame]: the trace contains
exactly one nuke.execute call and its arguments are firstFrame - 1 and
lastFrame. -/
theorem claim_render_range_offset (entries : List DirEntry) (path : List Char)
    (ff lf : Int) (p : PublishData) (rf : Bool) (g : SeqGroup)
    (h : validateSequence entries path = some g) :
    (runPipeline entries path ff lf (some p) rf).filter isRender =
      [Event.render (ff - 1) lf] := by
  rw [runPipeline_of_validate entries path ff lf p rf g h]
  cases rf <;> rfl

/-- Witness for C8 at a concrete run. -/
theorem claim_render_range_offset_witness :
    (runPipeline sampleEntries samplePath 1001 1010 (some samplePub)
      false).filter isRender = [Event.render 1000 1010] := by
  rw [claim_render_range_offset sampleEntries samplePath 1001 1010 samplePub
    false sampleGroup (by decide)]
  decide

/-- C9: when the publish lookup returns no record the run aborts
fatally (the None record makes the slate stage raise) and its trace
contains no tracking-system write and no render call: the failure
happens before any external mutation and before the render stage. -/
theorem claim_publish_none_no_writes (entries : List DirEntry)
    (path : List Char) (ff lf : Int) (rf : Bool) :
    Event.abort ∈ runPipeline entries path ff lf none rf ∧
      ∀ e ∈ runPipeline entries path ff lf none rf,
        isSgWrite e = false ∧ isRender e = false := by
  cases hv : validateSequence entries path with
  | none =>
    simp only [runPipeline, hv]
    refine ⟨List.mem_singleton.mpr rfl, ?_⟩
    intro e he
    rw [List.mem_singleton.mp he]
    exact ⟨rfl, rfl⟩
  | some g =>
    cases hr : setupScriptRange g.frames with
    | none =>
      simp only [runPipeline, hv, hr]
      refine ⟨List.mem_singleton.mpr rfl, ?_⟩
      intro e he
      rw [List.mem_singleton.mp he]
      exact ⟨rfl, rfl⟩
    | some ab =>
      simp only [runPipeline, hv, hr]
      refine ⟨List.mem_cons_of_mem _ (List.mem_singleton.mpr rfl), ?_⟩
      intro e he
      rcases List.mem_cons.mp he with h1 | h1
      · rw [h1]; exact ⟨rfl, rfl⟩
      · rw [List.mem_singleton.mp h1]; exact ⟨rfl, rfl⟩

/-- Witness for C9 at a concrete run (lookup returning no record). -/
theorem claim_publish_none_no_writes_witness :
    Event.abort ∈ runPipeline sampleEntries samplePath 1001 1010 none false ∧
      ∀ e ∈ runPipeline sampleEntries samplePath 1001 1010 none false,
        isSgWrite e = false ∧ isRender e = false :=
  claim_publish_none_no_writes sampleEntries samplePath 1001 1010 false

/-- C5: the validator returns a scanned group (frame list unchanged)
exactly when the requested basename equals the group's templated
basename after the 1001-to-placeholder substitution; with no matching
candidate it returns nothing and the whole run aborts with no renderer
or tracking calls. -/
theorem claim_validator_match_or_abort (entries : List DirEntry)
    (path : List Char) :
    ((∃ g ∈ getFrameSequences (dirname path) none none entries,
        basename path = fixFilename (basename g.path)) →
      ∃ g', validateSequence entries path = some g' ∧
        g' ∈ getFrameSequences (dirname path) none none entries ∧
        basename path = fixFilename (basename g'.path)) ∧
    ((∀ g ∈ getFrameSequences (dirname path) none none entries,
        basename path ≠ fixFilename (basename g.path)) →
      validateSequence entries path = none ∧
        ∀ (ff lf : Int) (pub : Option PublishData) (rf : Bool),
          runPipeline entries path ff lf pub rf = [Event.abort]) := by
  constructor
  · rintro ⟨g, hmem, hf⟩
    obtain ⟨g', hg1, hg2, hg3⟩ :=
      findSeq_of_match (basename path)
        (getFrameSequences (dirname path) none none entries) g hmem hf
    exact ⟨g', hg1, hg2, hg3⟩
  · intro hall
    have hv : validateSequence entries path = none :=
      findSeq_none _ _ hall
    refine ⟨hv, ?_⟩
    intro ff lf pub rf
    simp [runPipeline, hv]

/-- Witness for C5 at a concrete matching directory and path. -/
theorem claim_validator_match_or_abort_witness :
    ∃ g', validateSequence sampleEntries samplePath = some g' ∧
      g' ∈ getFrameSequences (dirname samplePath) none none sampleEntries ∧
      basename samplePath = fixFilename (basename g'.path) :=
  (claim_validator_match_or_abort sampleEntries samplePath).1
    ⟨sampleGroup, by decide, by decide⟩

/-- C6: the frame-range label written to the slate is always
"<first> - <last> (<duration>)" with duration = lastFrame - firstFrame,
and in particular for 1001 and 1010 it is "1001 - 1010 (9)". -/
theorem claim_slate_frame_label :
    (∀ (pd : PublishData) (company : List Char) (ff lf : Int)
        (idt odt : List Char),
      (setupSlate pd company ff lf idt odt).frameList =
        intStr ff ++ chars (" - ") ++ intStr lf ++ chars (" (") ++
          intStr (lf - ff) ++ chars (")")) ∧
    (setupSlate samplePub (chars ("ShotGrid")) 1001 1010 (chars ("i"))
        (chars ("o"))).frameList = chars ("1001 - 1010 (9)") :=
  ⟨fun _ _ _ _ _ _ => rfl, by decide⟩

lemma matchingKeys_cons_some (e : DirEntry) (es : List DirEntry)
    (k' d : List Char) (h : entryKeyDigits e = some (k', d)) :
    matchingKeys (e :: es) = k' :: matchingKeys es := by
  simp [matchingKeys, List.filterMap_cons, h]

lemma matchingKeys_cons_none (e : DirEntry) (es : List DirEntry)
    (h : entryKeyDigits e = none) :
    matchingKeys (e :: es) = matchingKeys es := by
  simp [matchingKeys, List.filterMap_cons, h]

lemma digitsFor_ne_iff (k : List Char) (entries : List DirEntry) :
    digitsFor k entries ≠ [] ↔ k ∈ matchingKeys entries := by
  induction entries with
  | nil => simp [digitsFor, matchingKeys]
  | cons e es ih =>
    cases hkd : entryKeyDigits e with
    | none =>
      rw [matchingKeys_cons_none e es hkd]
      simp only [digitsFor, hkd]
      exact ih
    | some kd =>
      obtain ⟨k', d⟩ := kd
      rw [matchingKeys_cons_some e es k' d hkd]
      by_cases hk : k' = k
      · subst hk
        simp [digitsFor, hkd]
      · simp only [digitsFor, hkd, if_neg hk, List.mem_cons]
        constructor
        · intro hne; exact Or.inr (ih.mp hne)
        · rintro (hor | hor)
          · exact absurd hor.symm hk
          · exact ih.mpr hor

lemma nodup_two {α : Type} [DecidableEq α] (l : List α) (a b : α)
    (hnd : l.Nodup) (hsub : ∀ x ∈ l, x = a ∨ x = b)
    (ha : a ∈ l) (hb : b ∈ l) (hne : a ≠ b) : l.length = 2 := by
  have hfin : l.toFinset = {a, b} := by
    apply Finset.ext
    intro x
    simp only [List.mem_toFinset, Finset.mem_insert, Finset.mem_singleton]
    constructor
    · intro hx; exact hsub x hx
    · intro hx
      rcases hx with hx | hx
      · rw [hx]; exact ha
      · rw [hx]; exact hb
  have hcard : l.toFinset.card = l.length := List.toFinset_card_of_nodup hnd
  rw [← hcard, hfin]
  rw [Finset.card_insert_of_not_mem (by simp [hne]), Finset.card_singleton]

/-- C10: with no extension allow-list the scanner output partitions the
matching listing entries: the group keys are pairwise distinct, and for
every key the group's frame list is exactly the frame numbers of the
non-directory, pattern-matching entries bearing that key, in listing
order (one frame entry per matching entry); keys with no matching entry
have no group, so directories and non-matching names contribute
nothing. -/
theorem claim_scan_partition (folder : List Char) (entries : List DirEntry) :
    ((scanFold folder none ⟨none, []⟩ entries).proc.map Prod.fst).Nodup ∧
      ∀ k : List Char,
        framesAt (scanFold folder none ⟨none, []⟩ entries).proc k =
          if digitsFor k entries = [] then none
          else some (digitsFor k entries) := by
  constructor
  · exact scanFold_keys_nodup folder entries ⟨none, []⟩ (by simp)
  · intro k
    rw [scanFold_framesAt folder entries ⟨none, []⟩ k]
    rfl

/-- C7: a directory whose matching entries carry exactly two distinct
grouping keys (two interleaved sequences with different prefixes)
yields exactly two groups, and each key's group holds exactly the frame
numbers of its own files, in listing order. -/
theorem claim_two_prefix_two_groups (folder : List Char)
    (entries : List DirEntry) (k1 k2 : List Char) (hne : k1 ≠ k2)
    (hsub : ∀ k ∈ matchingKeys entries, k = k1 ∨ k = k2)
    (h1 : k1 ∈ matchingKeys entries) (h2 : k2 ∈ matchingKeys entries) :
    (getFrameSequences folder none none entries).length = 2 ∧
      framesAt (scanFold folder none ⟨none, []⟩ entries).proc k1 =
        some (digitsFor k1 entries) ∧
      framesAt (scanFold folder none ⟨none, []⟩ entries).proc k2 =
        some (digitsFor k2 entries) := by
  have hframes : ∀ k, framesAt (scanFold folder none ⟨none, []⟩ entries).proc k =
      if digitsFor k entries = [] then none
      else some (digitsFor k entries) := by
    intro k
    rw [scanFold_framesAt folder entries ⟨none, []⟩ k]
    rfl
  have hkey : ∀ k,
      k ∈ (scanFold folder none ⟨none, []⟩ entries).proc.map Prod.fst ↔
        k ∈ matchingKeys entries := by
    intro k
    rw [← digitsFor_ne_iff]
    constructor
    · intro hmem hd
      have hfr := hframes k
      rw [if_pos hd] at hfr
      cases halk : alookup (scanFold folder none ⟨none, []⟩ entries).proc k with
      | none => exact (alookup_eq_none_iff _ k).mp halk hmem
      | some g =>
        rw [framesAt, halk] at hfr
        cases hfr
    · intro hd
      by_contra hmem
      have hnone : alookup (scanFold folder none ⟨none, []⟩ entries).proc k =
          none := (alookup_eq_none_iff _ k).mpr hmem
      have hfr := hframes k
      rw [if_neg hd, framesAt, hnone] at hfr
      cases hfr
  have hnd : ((scanFold folder none ⟨none, []⟩ entries).proc.map Prod.fst).Nodup :=
    scanFold_keys_nodup folder entries ⟨none, []⟩ (by simp)
  have hlen : ((scanFold folder none ⟨none, []⟩ entries).proc.map Prod.fst).length
      = 2 := by
    refine nodup_two _ k1 k2 hnd ?_ ((hkey k1).mpr h1) ((hkey k2).mpr h2) hne
    intro x hx
    exact hsub x ((hkey x).mp hx)
  refine ⟨?_, ?_, ?_⟩
  · rw [getFrameSequences, List.length_map]
    rw [List.length_map] at hlen
    exact hlen
  · rw [hframes k1, if_neg ((digitsFor_ne_iff k1 entries).mpr h1)]
  · rw [hframes k2, if_neg ((digitsFor_ne_iff k2 entries).mpr h2)]

/-- Witness for C7: two interleaved sequences a.*.exr and b.*.exr. -/
theorem claim_two_prefix_two_groups_witness :
    (getFrameSequences (chars ("d")) none none interEntries).length = 2 ∧
      framesAt (scanFold (chars ("d")) none ⟨none, []⟩ interEntries).proc
          (chars ("a.exr")) =
        some (digitsFor (chars ("a.exr")) interEntries) ∧
      framesAt (scanFold (chars ("d")) none ⟨none, []⟩ interEntries).proc
          (chars ("b.exr")) =
        some (digitsFor (chars ("b.exr")) interEntries) :=
  claim_two_prefix_two_groups (chars ("d")) interEntries (chars ("a.exr"))
    (chars ("b.exr")) (by decide) (by decide) (by decide) (by decide)

/-- Counterexample to C4: in a directory whose two groups' first members
have 4 and 2 frame digits, the second group's templated path carries
the 4-digit placeholder inherited from the first group — the 2-digit
placeholder its own first member would dictate does not occur in the
path at all, so the padding width is NOT derived per group. -/
theorem claim_padding_per_group_counterexample :
    getFrameSequences (chars ("d")) none none padEntries =
      [⟨chars ("d/a.%04d.exr"), [chars ("1001")]⟩,
        ⟨chars ("d/b.%04d.exr"), [chars ("01")]⟩] ∧
      padSpec (chars ("01")).length = chars ("%02d") ∧
      hasSub (chars ("%02d")) (chars ("d/b.%04d.exr")) = false := by
  decide

/-- C4 amended: when __get_frame_sequences is called without a
frame_spec, the first group created during the scan fixes the
placeholder for the WHOLE scan: every group's templated path uses the
"%0<w>d" placeholder whose width w is the digit count of the
first-encountered member of the FIRST group (its first frame string),
regardless of the digit counts in later groups. -/
theorem claim_padding_shared_with_first_group (folder : List Char)
    (entries : List DirEntry) (g g0 : SeqGroup) (gs : List SeqGroup)
    (hscan : getFrameSequences folder none none entries = g0 :: gs)
    (hmem : g ∈ g0 :: gs) :
    ∃ d0 ds, g0.frames = d0 :: ds ∧
      ∃ pre c ext, sepChar c = true ∧
        g.path = joinPath folder (pre ++ c :: padSpec d0.length ++ '.' :: ext) := by
  have hinv0 : SpecInv folder ⟨none, []⟩ := rfl
  have hinv := scanFold_specInv folder entries ⟨none, []⟩ hinv0
  rw [getFrameSequences] at hscan
  cases hsp : (scanFold folder none ⟨none, []⟩ entries).spec with
  | none =>
    rw [SpecInv, hsp] at hinv
    rw [hinv] at hscan
    cases hscan
  | some s =>
    rw [SpecInv, hsp] at hinv
    obtain ⟨⟨kg0, rest, hproc, d0, ds, hf0, hs⟩, hall⟩ := hinv
    have hg0 : kg0.2 = g0 := by
      rw [hproc] at hscan
      rw [List.map_cons] at hscan
      exact (List.cons.injEq _ _ _ _ ▸ hscan).1
    refine ⟨d0, ds, by rw [← hg0]; exact hf0, ?_⟩
    have hmem' : g ∈ (scanFold folder none ⟨none, []⟩ entries).proc.map Prod.snd := by
      rw [hscan]
      exact hmem
    rcases List.mem_map.mp hmem' with ⟨kg, hkgmem, hkgsnd⟩
    obtain ⟨pre, c, ext, hsep, hpath⟩ := hall kg hkgmem
    rw [← hs]
    exact ⟨pre, c, ext, hsep, by rw [← hkgsnd]; exact hpath⟩

/-- Witness for the amended C4 at the two-group directory: the second
group's path uses the width-4 placeholder fixed by the first group. -/
theorem claim_padding_shared_with_first_group_witness :
    ∃ d0 ds, ([chars ("1001")] : List (List Char)) = d0 :: ds ∧
      ∃ pre c ext, sepChar c = true ∧
        chars ("d/b.%04d.exr") =
          joinPath (chars ("d")) (pre ++ c :: padSpec d0.length ++ '.' :: ext) :=
  claim_padding_shared_with_first_group (chars ("d")) padEntries
    ⟨chars ("d/b.%04d.exr"), [chars ("01")]⟩
    ⟨chars ("d/a.%04d.exr"), [chars ("1001")]⟩
    [⟨chars ("d/b.%04d.exr"), [chars ("01")]⟩]
    (by decide) (by decide)

lemma strToNat_lt_pow (s : List Char) (h : ∀ c ∈ s, isDigitC c = true) :
    strToNat s < 10 ^ s.length := by
  induction s with
  | nil => simp [strToNat]
  | cons c cs ih =>
    have hc : isDigitC c = true := h c (List.mem_cons_self _ _)
    have hcs : ∀ x ∈ cs, isDigitC x = true :=
      fun x hx => h x (List.mem_cons_of_mem _ hx)
    have h1 := ih hcs
    simp only [isDigitC, Bool.and_eq_true, decide_eq_true_eq] at hc
    simp only [strToNat, List.length_cons]
    calc (c.toNat - 48) * 10 ^ cs.length + strToNat cs
        < (c.toNat - 48) * 10 ^ cs.length + 10 ^ cs.length :=
          Nat.add_lt_add_left h1 _
      _ = (c.toNat - 48 + 1) * 10 ^ cs.length := by ring
      _ ≤ 10 * 10 ^ cs.length := Nat.mul_le_mul_right _ (by omega)
      _ = 10 ^ (cs.length + 1) := by ring

lemma strLt_iff_lt (a : List Char) :
    ∀ b : List Char, (∀ c ∈ a, isDigitC c = true) →
      (∀ c ∈ b, isDigitC c = true) → a.length = b.length →
      (strLt a b = true ↔ strToNat a < strToNat b) := by
  induction a with
  | nil =>
    intro b _ _ hl
    cases b with
    | nil => simp [strLt, strToNat]
    | cons d ds => simp at hl
  | cons c cs ih =>
    intro b ha hb hl
    cases b with
    | nil => simp at hl
    | cons d ds =>
      have hl' : cs.length = ds.length := by simpa using hl
      have hc := ha c (List.mem_cons_self _ _)
      have hd := hb d (List.mem_cons_self _ _)
      have hcs : ∀ x ∈ cs, isDigitC x = true :=
        fun x hx => ha x (List.mem_cons_of_mem _ hx)
      have hds : ∀ x ∈ ds, isDigitC x = true :=
        fun x hx => hb x (List.mem_cons_of_mem _ hx)
      simp only [isDigitC, Bool.and_eq_true, decide_eq_true_eq] at hc hd
      have hbound1 : strToNat cs < 10 ^ cs.length := strToNat_lt_pow cs hcs
      have hbound2 : strToNat ds < 10 ^ ds.length := strToNat_lt_pow ds hds
      simp only [strLt, strToNat]
      by_cases he : c.toNat = d.toNat
      · rw [if_pos he, ih ds hcs hds hl', he, hl']
        exact Iff.intro (fun hlt => Nat.add_lt_add_left hlt _)
          (fun hlt => Nat.lt_of_add_lt_add_left hlt)
      · rw [if_neg he]
        simp only [decide_eq_true_eq]
        constructor
        · intro hcd
          have h1 : c.toNat - 48 + 1 ≤ d.toNat - 48 := by omega
          calc (c.toNat - 48) * 10 ^ cs.length + strToNat cs
              < (c.toNat - 48) * 10 ^ cs.length + 10 ^ cs.length :=
                Nat.add_lt_add_left hbound1 _
            _ = (c.toNat - 48 + 1) * 10 ^ cs.length := by ring
            _ ≤ (d.toNat - 48) * 10 ^ cs.length := Nat.mul_le_mul_right _ h1
            _ = (d.toNat - 48) * 10 ^ ds.length := by rw [hl']
            _ ≤ (d.toNat - 48) * 10 ^ ds.length + strToNat ds :=
                Nat.le_add_right _ _
        · intro hlt
          by_contra hcd
          have h1 : d.toNat - 48 + 1 ≤ c.toNat - 48 := by omega
          have hgt : (d.toNat - 48) * 10 ^ ds.length + strToNat ds <
              (c.toNat - 48) * 10 ^ cs.length + strToNat cs := by
            calc (d.toNat - 48) * 10 ^ ds.length + strToNat ds
                < (d.toNat - 48) * 10 ^ ds.length + 10 ^ ds.length :=
                  Nat.add_lt_add_left hbound2 _
              _ = (d.toNat - 48 + 1) * 10 ^ ds.length := by ring
              _ ≤ (c.toNat - 48) * 10 ^ ds.length := Nat.mul_le_mul_right _ h1
              _ = (c.toNat - 48) * 10 ^ cs.length := by rw [hl']
              _ ≤ (c.toNat - 48) * 10 ^ cs.length + strToNat cs :=
                  Nat.le_add_right _ _
          omega

lemma foldl_min_mem (xs : List (List Char)) :
    ∀ x, (xs.foldl (fun m y => if strLt y m then y else m) x) ∈ x :: xs := by
  induction xs with
  | nil => intro x; exact List.mem_cons_self _ _
  | cons y ys ih =>
    intro x
    simp only [List.foldl_cons]
    by_cases h : strLt y x = true
    · rw [if_pos h]
      rcases List.mem_cons.mp (ih y) with h1 | h1
      · rw [h1]
        exact List.mem_cons_of_mem _ (List.mem_cons_self _ _)
      · exact List.mem_cons_of_mem _ (List.mem_cons_of_mem _ h1)
    · rw [if_neg h]
      rcases List.mem_cons.mp (ih x) with h1 | h1
      · rw [h1]
        exact List.mem_cons_self _ _
      · exact List.mem_cons_of_mem _ (List.mem_cons_of_mem _ h1)

lemma foldl_max_mem (xs : List (List Char)) :
    ∀ x, (xs.foldl (fun m y => if strLt m y then y else m) x) ∈ x :: xs := by
  induction xs with
  | nil => intro x; exact List.mem_cons_self _ _
  | cons y ys ih =>
    intro x
    simp only [List.foldl_cons]
    by_cases h : strLt x y = true
    · rw [if_pos h]
      rcases List.mem_cons.mp (ih y) with h1 | h1
      · rw [h1]
        exact List.mem_cons_of_mem _ (List.mem_cons_self _ _)
      · exact List.mem_cons_of_mem _ (List.mem_cons_of_mem _ h1)
    · rw [if_neg h]
      rcases List.mem_cons.mp (ih x) with h1 | h1
      · rw [h1]
        exact List.mem_cons_self _ _
      · exact List.mem_cons_of_mem _ (List.mem_cons_of_mem _ h1)

lemma foldl_min_le (w : Nat) (xs : List (List Char)) :
    ∀ x, (∀ s ∈ x :: xs, (∀ c ∈ s, isDigitC c = true) ∧ s.length = w) →
      ∀ z ∈ x :: xs,
        strToNat (xs.foldl (fun m y => if strLt y m then y else m) x) ≤
          strToNat z := by
  induction xs with
  | nil =>
    intro x _ z hz
    rcases List.mem_cons.mp hz with h1 | h1
    · rw [h1]
      exact Nat.le_refl _
    · cases h1
  | cons y ys ih =>
    intro x hall z hz
    obtain ⟨hxd, hxl⟩ := hall x (List.mem_cons_self _ _)
    obtain ⟨hyd, hyl⟩ :=
      hall y (List.mem_cons_of_mem _ (List.mem_cons_self _ _))
    simp only [List.foldl_cons]
    have hacc : (if strLt y x = true then y else x) = y ∨
        (if strLt y x = true then y else x) = x := by
      by_cases h : strLt y x = true
      · rw [if_pos h]; exact Or.inl rfl
      · rw [if_neg h]; exact Or.inr rfl
    have hall' : ∀ s ∈ (if strLt y x = true then y else x) :: ys,
        (∀ c ∈ s, isDigitC c = true) ∧ s.length = w := by
      intro s hs
      rcases List.mem_cons.mp hs with h1 | h1
      · rcases hacc with h2 | h2 <;> rw [h1, h2]
        · exact ⟨hyd, hyl⟩
        · exact ⟨hxd, hxl⟩
      · exact hall s (List.mem_cons_of_mem _ (List.mem_cons_of_mem _ h1))
    have hres := ih (if strLt y x = true then y else x) hall'
    have hlea : strToNat (ys.foldl (fun m y => if strLt y m then y else m)
        (if strLt y x = true then y else x)) ≤
        strToNat (if strLt y x = true then y else x) :=
      hres _ (List.mem_cons_self _ _)
    have hley : strToNat (if strLt y x = true then y else x) ≤ strToNat y := by
      by_cases h : strLt y x = true
      · rw [if_pos h]
      · rw [if_neg h]
        have := (strLt_iff_lt y x hyd hxd (hyl.trans hxl.symm)).not.mp h
        omega
    have hlex : strToNat (if strLt y x = true then y else x) ≤ strToNat x := by
      by_cases h : strLt y x = true
      · rw [if_pos h]
        have := (strLt_iff_lt y x hyd hxd (hyl.trans hxl.symm)).mp h
        omega
      · rw [if_neg h]
    rcases List.mem_cons.mp hz with h1 | h1
    · rw [h1]
      exact hlea.trans hlex
    rcases List.mem_cons.mp h1 with h2 | h2
    · rw [h2]
      exact hlea.trans hley
    · exact hres z (List.mem_cons_of_mem _ h2)

lemma foldl_max_ge (w : Nat) (xs : List (List Char)) :
    ∀ x, (∀ s ∈ x :: xs, (∀ c ∈ s, isDigitC c = true) ∧ s.length = w) →
      ∀ z ∈ x :: xs,
        strToNat z ≤
          strToNat (xs.foldl (fun m y => if strLt m y then y else m) x) := by
  induction xs with
  | nil =>
    intro x _ z hz
    rcases List.mem_cons.mp hz with h1 | h1
    · rw [h1]
      exact Nat.le_refl _
    · cases h1
  | cons y ys ih =>
    intro x hall z hz
    obtain ⟨hxd, hxl⟩ := hall x (List.mem_cons_self _ _)
    obtain ⟨hyd, hyl⟩ :=
      hall y (List.mem_cons_of_mem _ (List.mem_cons_self _ _))
    simp only [List.foldl_cons]
    have hacc : (if strLt x y = true then y else x) = y ∨
        (if strLt x y = true then y else x) = x := by
      by_cases h : strLt x y = true
      · rw [if_pos h]; exact Or.inl rfl
      · rw [if_neg h]; exact Or.inr rfl
    have hall' : ∀ s ∈ (if strLt x y = true then y else x) :: ys,
        (∀ c ∈ s, isDigitC c = true) ∧ s.length = w := by
      intro s hs
      rcases List.mem_cons.mp hs with h1 | h1
      · rcases hacc with h2 | h2 <;> rw [h1, h2]
        · exact ⟨hyd, hyl⟩
        · exact ⟨hxd, hxl⟩
      · exact hall s (List.mem_cons_of_mem _ (List.mem_cons_of_mem _ h1))
    have hres := ih (if strLt x y = true then y else x) hall'
    have hgea : strToNat (if strLt x y = true then y else x) ≤
        strToNat (ys.foldl (fun m y => if strLt m y then y else m)
          (if strLt x y = true then y else x)) :=
      hres _ (List.mem_cons_self _ _)
    have hgey : strToNat y ≤ strToNat (if strLt x y = true then y else x) := by
      by_cases h : strLt x y = true
      · rw [if_pos h]
      · rw [if_neg h]
        have := (strLt_iff_lt x y hxd hyd (hxl.trans hyl.symm)).not.mp h
        omega
    have hgex : strToNat x ≤ strToNat (if strLt x y = true then y else x) := by
      by_cases h : strLt x y = true
      · rw [if_pos h]
        have := (strLt_iff_lt x y hxd hyd (hxl.trans hyl.symm)).mp h
        omega
      · rw [if_neg h]
    rcases List.mem_cons.mp hz with h1 | h1
    · rw [h1]
      exact hgex.trans hgea
    rcases List.mem_cons.mp h1 with h2 | h2
    · rw [h2]
      exact hgey.trans hgea
    · exact hres z (List.mem_cons_of_mem _ h2)

/-- Counterexample to C3: __setup_script computes int(min(...)) and
int(max(...)) over the frame-number STRINGS.  For the validated group
of a directory holding a.999.exr and a.1000.exr the frame list is
["999", "1000"]; its integer minimum and maximum are 999 and 1000, but
the read node gets first = 1000 and last = 999, because "1000"
compares lexicographically below "999". -/
theorem claim_read_range_counterexample :
    (validateSequence mixedEntries mixedPath).map
        (fun g => setupScriptRange g.frames) = some (some (1000, 999)) ∧
      (validateSequence mixedEntries mixedPath).map
        (fun g => g.frames.map strToNat) = some [999, 1000] := by
  decide

/-- C3 amended: firstSequenceFrame/lastSequenceFrame are int() of the
lexicographic min/max of the frame strings; this equals the integer
minimum and maximum of the frame list whenever all frame strings of
the group share one digit-count (uniform zero padding), the intended
shape of a frame sequence.  With mixed digit counts the values can
differ (see the counterexample). -/
theorem claim_read_range_int_minmax_uniform (frames : List (List Char))
    (w : Nat) (hne : frames ≠ [])
    (hdig : ∀ s ∈ frames, ∀ c ∈ s, isDigitC c = true)
    (hlen : ∀ s ∈ frames, s.length = w) :
    ∃ a b, setupScriptRange frames = some (a, b) ∧
      a ∈ frames.map strToNat ∧ b ∈ frames.map strToNat ∧
      ∀ v ∈ frames.map strToNat, a ≤ v ∧ v ≤ b := by
  cases frames with
  | nil => exact absurd rfl hne
  | cons x xs =>
    have hall : ∀ s ∈ x :: xs, (∀ c ∈ s, isDigitC c = true) ∧ s.length = w :=
      fun s hs => ⟨hdig s hs, hlen s hs⟩
    refine ⟨strToNat (xs.foldl (fun m y => if strLt y m then y else m) x),
      strToNat (xs.foldl (fun m y => if strLt m y then y else m) x),
      rfl, ?_, ?_, ?_⟩
    · exact List.mem_map.mpr ⟨_, foldl_min_mem xs x, rfl⟩
    · exact List.mem_map.mpr ⟨_, foldl_max_mem xs x, rfl⟩
    · intro v hv
      rcases List.mem_map.mp hv with ⟨z, hz, hzv⟩
      rw [← hzv]
      exact ⟨foldl_min_le w xs x hall z hz, foldl_max_ge w xs x hall z hz⟩

/-- Witness for the amended C3 on a uniformly padded frame list. -/
theorem claim_read_range_int_minmax_uniform_witness :
    ∃ a b, setupScriptRange [chars ("1005"), chars ("1001"), chars ("1003")] =
        some (a, b) ∧
      a ∈ [chars ("1005"), chars ("1001"), chars ("1003")].map strToNat ∧
      b ∈ [chars ("1005"), chars ("1001"), chars ("1003")].map strToNat ∧
      ∀ v ∈ [chars ("1005"), chars ("1001"), chars ("1003")].map strToNat,
        a ≤ v ∧ v ≤ b :=
  claim_read_range_int_minmax_uniform
    [chars ("1005"), chars ("1001"), chars ("1003")] 4 (by decide)
    (by decide) (by decide)
